import Mathlib

/-!
Verification development for the FTML whisper server core
(`src/whisper/server.py`).  The Python functions that the claims concern are
shallow-embedded below: pure helpers become Lean functions, audio sample
arrays become `List ℚ`, Python floats on the control paths become `ℚ`,
strings become `List Char`, and the external collaborators (the speech
probability oracle, the DSP filters, the vocal separation engine, the model
artifact download) are abstracted as function parameters, exactly as the
code treats them as black boxes.
-/

namespace FTML

/-! ### Character classes (Python `str.strip`, `re` classes `\s`, `\w`)

`isSpaceChar` models the ASCII part of Python's whitespace class, which is
all the claims exercise.  `isWordChar` models Python's Unicode-aware `\w`
(letters, digits, underscore); beyond ASCII it covers the script blocks
appearing in this codebase (Latin extended, Greek, Cyrillic, kana, CJK
unified ideographs, Hangul syllables). -/

def isSpaceChar (c : Char) : Bool :=
  c = ' ' || c = '\t' || c = '\n' || c = '\r' || c = '\x0b' || c = '\x0c'

def isWordChar (c : Char) : Bool :=
  ('0' ≤ c && c ≤ '9') || ('A' ≤ c && c ≤ 'Z') || ('a' ≤ c && c ≤ 'z') || c = '_' ||
  (0x00C0 ≤ c.toNat && c.toNat ≤ 0x024F) ||
  (0x0370 ≤ c.toNat && c.toNat ≤ 0x03FF) ||
  (0x0400 ≤ c.toNat && c.toNat ≤ 0x04FF) ||
  (0x3040 ≤ c.toNat && c.toNat ≤ 0x30FF) ||
  (0x4E00 ≤ c.toNat && c.toNat ≤ 0x9FFF) ||
  (0xAC00 ≤ c.toNat && c.toNat ≤ 0xD7A3)

/-- Python `str.strip()`: drop whitespace from the front, then from the back. -/
def strip (l : List Char) : List Char :=
  (((l.dropWhile isSpaceChar).reverse).dropWhile isSpaceChar).reverse

/-- Python `str.lower()` restricted to ASCII letters; the hallucination
phrase list contains no cased non-ASCII letters, so this agrees with the
code on every comparison it performs. -/
def lowerChar (c : Char) : Char := c.toLower

/-! ### Hallucination filtering (`is_hallucination`, server.py lines 276–332) -/

/-- `_HALLUCINATION_EXACT` from server.py (the curated phrase set). -/
def hallucinationExact : List (List Char) :=
  ["ご視聴ありがとうございました".data, "ご視聴ありがとうございます".data,
   "お疲れ様でした".data, "おやすみなさい".data, "では、また".data, "それでは、また".data,
   "thank you for watching".data, "thanks for watching".data,
   "please subscribe".data, "like and subscribe".data, "see you next time".data,
   "시청해 주셔서 감사합니다".data, "구독과 좋아요 부탁드립니다".data,
   "谢谢观看".data, "感谢收看".data,
   "...".data, "…".data]

/-- Pattern `^by\s+\w\.?$` (IGNORECASE): "by", whitespace, one word char,
an optional trailing dot. -/
def patBy (t : List Char) : Bool :=
  match t with
  | b :: y :: rest =>
      lowerChar b = 'b' && lowerChar y = 'y' &&
      (let r := rest.dropWhile isSpaceChar
       decide (r ≠ rest) &&
       match r with
       | c :: rest2 => isWordChar c && (rest2 = [] || rest2 = ['.'])
       | [] => false)
  | _ => false

/-- Pattern `^[\.…\s]+$`: dots / ellipsis / whitespace only (nonempty). -/
def patDots (t : List Char) : Bool :=
  decide (t ≠ []) && t.all (fun c => c = '.' || c = '…' || isSpaceChar c)

/-- Pattern `^[\s\W]+$`: whitespace / non-word characters only (nonempty). -/
def patNonWord (t : List Char) : Bool :=
  decide (t ≠ []) && t.all (fun c => isSpaceChar c || !isWordChar c)

/-- Pattern `^\w{1,2}$`: one or two word characters. -/
def patWord12 (t : List Char) : Bool :=
  (t.length = 1 || t.length = 2) && t.all isWordChar

/-- `_HALLUCINATION_PATTERNS` applied in order (`pattern.match(t)`). -/
def matchesHallucinationPattern (t : List Char) : Bool :=
  patBy t || patDots t || patNonWord t || patWord12 t

/-- `is_hallucination(text, duration)` from server.py lines 300–332,
branch for branch. -/
def is_hallucination (text : List Char) (duration : ℚ) : Bool :=
  if text = [] then true
  else if strip text = [] then true
  else if strip text ∈ hallucinationExact ||
          (strip text).map lowerChar ∈ hallucinationExact then true
  else if matchesHallucinationPattern (strip text) then true
  else if (strip text).length ≤ 4 && decide (duration < 1) then true
  else if duration < 3/10 then true
  else false

/-! ### Cue filtering inside `chunks_to_vtt` (server.py lines 220–261)

`chunks_to_vtt` renders WebVTT text; all claims about it concern which
cues survive its dropping logic, so the embedding returns the kept cue
list (each kept cue carries the stripped text the code writes out). -/

structure Cue where
  text : List Char
  start_ts : ℚ
  end_ts : ℚ
deriving DecidableEq, Repr

/-- The loop of `chunks_to_vtt` with its running state: `prev` is
`prev_text`, `rc` is `repeat_count`. -/
def filterGo (prev : List Char) (rc : ℕ) : List Cue → List Cue
  | [] => []
  | c :: rest =>
    let t := strip c.text
    if t = [] then filterGo prev rc rest
    else
      let dur := c.end_ts - c.start_ts
      if (29 : ℚ) ≤ dur then filterGo prev rc rest
      else if t = prev ∧ 2 ≤ rc + 1 then filterGo prev (rc + 1) rest
      else
        let rc' := if t = prev then rc + 1 else 0
        if is_hallucination t dur then filterGo t rc' rest
        else ⟨t, c.start_ts, c.end_ts⟩ :: filterGo t rc' rest

/-- The cues kept by `chunks_to_vtt` (initial state `prev_text = ""`,
`repeat_count = 0`). -/
def chunks_to_vtt_kept (chunks : List Cue) : List Cue :=
  filterGo [] 0 chunks

/-- Per-cue conditions that every kept cue satisfies (its text is stripped
and nonempty, its duration is below the 29 s window cut, and it passes
`is_hallucination`). -/
def cleanCue (c : Cue) : Prop :=
  strip c.text = c.text ∧ c.text ≠ [] ∧ c.end_ts - c.start_ts < 29 ∧
    is_hallucination c.text (c.end_ts - c.start_ts) = false

/-- No three consecutive cues of the list carry identical text. -/
def noTripleRepeat : List Cue → Bool
  | a :: b :: c :: rest =>
      !(a.text = b.text && b.text = c.text) && noTripleRepeat (b :: c :: rest)
  | _ => true

/-! ### VAD segment extraction (`vad_speech_timestamps`, server.py 500–542)

The Silero oracle `vad_model.process` is an external collaborator: it is
abstracted as a function `prob` from a frame of samples to a probability.
Sample indices are `ℤ` (Python ints); the audio is a `List ℚ`. -/

structure Seg where
  start : ℤ
  stop : ℤ
deriving DecidableEq, Repr

/-- State of the scanning loop of `vad_speech_timestamps`. -/
structure VadState where
  segs : List Seg
  isSpeech : Bool
  speechStart : ℤ
  silence : ℕ
deriving DecidableEq, Repr

/-- `int(sr * 0.032)`: 32 ms frame, 512 samples at 16 kHz. -/
def vadChunkSize (sr : ℕ) : ℕ := sr * 32 / 1000

/-- `int(sr * ms / 1000)`. -/
def msSamples (sr ms : ℕ) : ℕ := sr * ms / 1000

/-- One iteration of the loop body, for the frame starting at sample
`i = k * chunk_size` with probability `p`. -/
def vadStep (threshold : ℚ) (cs minSilence minSpeech : ℕ) (st : VadState)
    (p : ℚ) (i : ℤ) : VadState :=
  if threshold ≤ p then
    if st.isSpeech then { st with silence := 0 }
    else { st with isSpeech := true, speechStart := i, silence := 0 }
  else if st.isSpeech then
    if minSilence ≤ (st.silence + 1) * cs then
      -- close the segment at the point silence began
      { segs :=
          if (minSpeech : ℤ) ≤ (i - (st.silence : ℤ) * cs) - st.speechStart then
            st.segs ++ [⟨st.speechStart, i - (st.silence : ℤ) * cs⟩]
          else st.segs,
        isSpeech := false, speechStart := st.speechStart, silence := 0 }
    else { st with silence := st.silence + 1 }
  else st

/-- Run the loop over frames `0, cs, 2·cs, …` (`range(0, len-cs+1, cs)`),
feeding each frame's samples to the probability oracle. -/
def vadLoop (prob : List ℚ → ℚ) (audio : List ℚ) (threshold : ℚ)
    (cs minSilence minSpeech : ℕ) : ℕ → VadState
  | 0 => ⟨[], false, 0, 0⟩
  | k + 1 =>
      let st := vadLoop prob audio threshold cs minSilence minSpeech k
      vadStep threshold cs minSilence minSpeech st
        (prob ((audio.drop (k * cs)).take cs)) ((k : ℤ) * cs)

/-- The loop state after the `for` loop of `vad_speech_timestamps`
(the number of frames `range(0, len(audio)-chunk_size+1, chunk_size)`
visits is `len / chunk_size`). -/
def vadFinalState (prob : List ℚ → ℚ) (audio : List ℚ) (sr : ℕ := 16000)
    (threshold : ℚ := 1/2) (min_speech_ms : ℕ := 250)
    (min_silence_ms : ℕ := 500) : VadState :=
  vadLoop prob audio threshold (vadChunkSize sr) (msSamples sr min_silence_ms)
    (msSamples sr min_speech_ms) (audio.length / vadChunkSize sr)

/-- `vad_speech_timestamps` (server.py 500–542): the loop, then the
"close last segment" epilogue. -/
def vad_speech_timestamps (prob : List ℚ → ℚ) (audio : List ℚ)
    (sr : ℕ := 16000) (threshold : ℚ := 1/2) (min_speech_ms : ℕ := 250)
    (min_silence_ms : ℕ := 500) : List Seg :=
  if (vadFinalState prob audio sr threshold min_speech_ms min_silence_ms).isSpeech then
    if (msSamples sr min_speech_ms : ℤ) ≤
        ((audio.length : ℤ) -
          ((vadFinalState prob audio sr threshold min_speech_ms min_silence_ms).silence : ℤ) *
            vadChunkSize sr) -
          (vadFinalState prob audio sr threshold min_speech_ms min_silence_ms).speechStart then
      (vadFinalState prob audio sr threshold min_speech_ms min_silence_ms).segs ++
        [⟨(vadFinalState prob audio sr threshold min_speech_ms min_silence_ms).speechStart,
          (audio.length : ℤ) -
            ((vadFinalState prob audio sr threshold min_speech_ms min_silence_ms).silence : ℤ) *
              vadChunkSize sr⟩]
    else (vadFinalState prob audio sr threshold min_speech_ms min_silence_ms).segs
  else (vadFinalState prob audio sr threshold min_speech_ms min_silence_ms).segs

/-! ### Segment merging and splitting (`merge_segments`, server.py 545–596) -/

/-- The merge loop: absorb the next segment into the running one when the
gap is small and the combined duration stays under `max`, otherwise emit
the running segment and restart from the next one. -/
def mergeGo (gapS maxS : ℤ) (cur : Seg) : List Seg → List Seg
  | [] => [cur]
  | s :: rest =>
    if s.start - cur.stop ≤ gapS ∧ s.stop - cur.start ≤ maxS then
      mergeGo gapS maxS ⟨cur.start, s.stop⟩ rest
    else
      cur :: mergeGo gapS maxS s rest

/-- The `while pos < seg['end']` slicing loop.  The extra `0 < maxS` guard
only rules out the parameter region where the Python loop would never
terminate (`max_samples ≤ 0`); on every actual call `max_samples > 0`. -/
def splitGo (maxS minS stopV pos : ℤ) : List Seg :=
  if h : pos < stopV ∧ 0 < maxS then
    (if minS ≤ min (pos + maxS) stopV - pos then [⟨pos, min (pos + maxS) stopV⟩] else []) ++
      splitGo maxS minS stopV (min (pos + maxS) stopV)
  else []
termination_by (stopV - pos).toNat
decreasing_by
  have h1 : pos < min (pos + maxS) stopV := lt_min_iff.mpr ⟨by omega, h.1⟩
  omega

/-- Post-processing of one merged segment: keep it when its duration is in
range, drop it when too short, slice it when too long. -/
def splitSeg (maxS minS : ℤ) (s : Seg) : List Seg :=
  if s.stop - s.start ≤ maxS then
    if minS ≤ s.stop - s.start then [s] else []
  else
    splitGo maxS minS s.stop s.start

/-- `merge_segments` on sample-denominated parameters. -/
def merge_segments_core (gapS maxS minS : ℤ) : List Seg → List Seg
  | [] => []
  | s0 :: rest => (mergeGo gapS maxS s0 rest).flatMap (splitSeg maxS minS)

/-- `int(sr * x)` for the nonnegative second-denominated parameters. -/
def secSamples (sr : ℕ) (x : ℚ) : ℤ := ⌊(sr : ℚ) * x⌋

/-- `merge_segments` (server.py 545–596) with its second-denominated
parameters and defaults. -/
def merge_segments (segments : List Seg) (sr : ℕ := 16000)
    (gap_threshold_s : ℚ := 3/2) (max_duration_s : ℚ := 28)
    (min_duration_s : ℚ := 1/2) : List Seg :=
  merge_segments_core (secSamples sr gap_threshold_s)
    (secSamples sr max_duration_s) (secSamples sr min_duration_s) segments

/-- Membership of a sample index in a segment list (used by the legacy
silence-replacement). -/
def coveredBy (segs : List Seg) (i : ℤ) : Bool :=
  segs.any (fun s => s.start ≤ i ∧ i < s.stop)

/-- Sorted and non-overlapping: each segment ends no later than the next
one starts. -/
def SegsSortedDisjoint (l : List Seg) : Prop :=
  List.Chain' (fun a b => a.stop ≤ b.start) l

/-! ### Model lifecycle (`load_model_by_id`, `ensure_model_loaded`,
server.py 115–177)

The external artifact download and pipeline construction
(`snapshot_download` + `WhisperPipeline`) are abstracted as a function
`build` returning `some handle` on success and `none` on failure (the
`raise` path). -/

structure LifecycleState where
  pipeline : Option String
  model_id_str : Option String
  loading_model : Bool
deriving DecidableEq, Repr

/-- `load_model_by_id(mid, is_swap)`: returns the new global state and
either `ok` or the propagated error. -/
def load_model_by_id (build : String → Option String) (mid : String)
    (is_swap : Bool) (s : LifecycleState) :
    LifecycleState × Except String Unit :=
  let s1 := { s with loading_model := true }
  let s2 := if is_swap && s1.pipeline.isSome then { s1 with pipeline := none } else s1
  match build mid with
  | some handle =>
      ({ pipeline := some handle, model_id_str := some mid, loading_model := false },
       Except.ok ())
  | none =>
      ({ pipeline := none,
         model_id_str := if is_swap then some mid else s2.model_id_str,
         loading_model := false },
       Except.error mid)

/-- The model id `ensure_model_loaded` reloads
(`model_id_str or os.environ.get("MODEL_ID", DEFAULT_MODEL_ID)`). -/
def ensure_model_loaded_target (s : LifecycleState) (envDefault : String) : String :=
  s.model_id_str.getD envDefault

/-! ### Which sample arrays reach `pipeline.generate`
(the `run_inference` dispatch, server.py 603–904)

For the dataflow claims only the arguments of the `pipeline.generate`
calls matter; each mode's function below returns, in call order, the
sample arrays handed to the recognizer.  DSP filters, the BGM classifier,
the vocal separation engine and the VAD oracle are parameters, as in the
code they are external.  Vocal separation may fail (`none`), in which case
`_run_inference_vocal_sep` falls back to the legacy path. -/

/-- `int(sr * 0.2)` padding of `run_segment_inference` (200 ms). -/
def padSamples (sr : ℕ) : ℕ := sr * 2 / 10

/-- `audio[extract_start:extract_end]` with
`extract_start = max(0, start - pad)`, `extract_end = min(len, end + pad)`. -/
def extractSlice (sr : ℕ) (audio : List ℚ) (s : Seg) : List ℚ :=
  let a : ℤ := max 0 (s.start - padSamples sr)
  let b : ℤ := min (audio.length : ℤ) (s.stop + padSamples sr)
  (audio.drop a.toNat).take (b - a).toNat

/-- Arrays passed to `pipeline.generate` by `run_segment_inference`
(one padded slice of its `audio` argument per segment). -/
def run_segment_inference_inputs (audio : List ℚ) (segs : List Seg)
    (sr : ℕ := 16000) : List (List ℚ) :=
  segs.map (extractSlice sr audio)

inductive BgmLevel | clean | light | heavy
deriving DecidableEq, Repr

/-- `VAD_BASE_THRESHOLD` default. -/
def VAD_BASE_THRESHOLD : ℚ := 1/5

/-- `_run_inference_adaptive`: BGM detection picks the filter chain and
VAD parameters, VAD runs on the filtered audio, whisper runs on slices of
the ORIGINAL audio. -/
def adaptive_generate_inputs (detect : List ℚ → BgmLevel)
    (highpass : ℕ → List ℚ → List ℚ) (denoise : List ℚ → List ℚ)
    (prob : List ℚ → ℚ) (audio : List ℚ) : List (List ℚ) :=
  let level := detect audio
  let vadAudio :=
    match level with
    | .heavy => denoise (highpass 250 audio)
    | .light => highpass 200 audio
    | .clean => highpass 150 audio
  let vadThreshold :=
    match level with
    | .heavy => VAD_BASE_THRESHOLD
    | .light => VAD_BASE_THRESHOLD
    | .clean => VAD_BASE_THRESHOLD + 1/10
  let minSilence : ℕ :=
    match level with
    | .heavy => 300
    | .light => 400
    | .clean => 500
  let speechSegments :=
    vad_speech_timestamps prob vadAudio 16000 vadThreshold 150 minSilence
  if speechSegments = [] then []
  else
    run_segment_inference_inputs audio
      (merge_segments speechSegments 16000 3 28 (3/10))

/-- `_run_inference_legacy`: VAD on the raw audio, non-speech replaced by
zeros, one whisper call on the silence-replaced array. -/
def legacy_generate_inputs (prob : List ℚ → ℚ) (audio : List ℚ) :
    List (List ℚ) :=
  let segments := vad_speech_timestamps prob audio
  if segments = [] then []
  else
    [(List.range audio.length).map
      (fun (i : ℕ) => if coveredBy segments (i : ℤ) then audio.getD i 0 else 0)]

/-- `_run_inference_vocal_sep`: separation (falling back to legacy on
failure), VAD on the vocals, whisper on slices of the VOCALS. -/
def vocal_sep_generate_inputs (separate : List ℚ → Option (List ℚ))
    (prob : List ℚ → ℚ) (audio : List ℚ) : List (List ℚ) :=
  match separate audio with
  | none => legacy_generate_inputs prob audio
  | some vocals =>
    let speechSegments := vad_speech_timestamps prob vocals
    if speechSegments = [] then []
    else run_segment_inference_inputs vocals (merge_segments speechSegments)

/-- `_run_inference_raw`: a single whisper call on the full audio, no
chunking of any kind. -/
def raw_generate_inputs (audio : List ℚ) : List (List ℚ) :=
  [audio]

inductive PreprocessMode | adaptive | vocal_sep | raw | legacy
deriving DecidableEq, Repr

/-- The `run_inference` dispatch on `PREPROCESS_MODE` (server.py 699–715):
which arrays reach `pipeline.generate` in each mode. -/
def run_inference_generate_inputs (mode : PreprocessMode)
    (detect : List ℚ → BgmLevel) (highpass : ℕ → List ℚ → List ℚ)
    (denoise : List ℚ → List ℚ) (separate : List ℚ → Option (List ℚ))
    (prob : List ℚ → ℚ) (audio : List ℚ) : List (List ℚ) :=
  match mode with
  | .vocal_sep => vocal_sep_generate_inputs separate prob audio
  | .adaptive => adaptive_generate_inputs detect highpass denoise prob audio
  | .raw => raw_generate_inputs audio
  | .legacy => legacy_generate_inputs prob audio

/-- The long-form chunking the specification describes for the whole-audio
mode.  Modelled from the spec: consecutive chunks of length `w` advancing
by `w - overlap`, the final chunk clipped at the signal end (this chunker
does not exist in server.py; `_run_inference_raw` makes one whole-signal
call). -/
def spec_long_form_chunks (w overlap : ℕ) (audio : List ℚ) : List (List ℚ) :=
  (List.range ((audio.length + (w - overlap) - 1) / (w - overlap))).map
    (fun k => (audio.drop (k * (w - overlap))).take w)

/-! ### The idle-release timer as an interleaving model
(server.py 180–204, 693–696)

The claims about the idle timer concern interleavings of inference
requests with the background `threading.Timer`.  The transition system
below models exactly the actions those lines perform: an inference starts
a `pipeline.generate` call only while the model is loaded; when it
completes, `_schedule_idle_unload` cancels any pending timer, records
`_last_inference_time = now` and arms a timer due `IDLE_TIMEOUT` later;
when a due timer fires, `_check_and_unload` unloads iff
`now - _last_inference_time ≥ IDLE_TIMEOUT - 1`; and the wall clock
advances.  `ensure_model_loaded` may reload an unloaded model. -/

structure TimerState where
  time : ℕ
  loaded : Bool
  lastInference : ℕ
  timerDeadline : Option ℕ
  inFlight : Bool
deriving DecidableEq, Repr

/-- Effect of `_check_and_unload` on the loaded flag. -/
def checkAndUnloadLoaded (T : ℕ) (s : TimerState) : Bool :=
  if T - 1 ≤ s.time - s.lastInference then false else s.loaded

inductive TimerStep (T : ℕ) : TimerState → TimerState → Prop
  | tick (s : TimerState) :
      TimerStep T s { s with time := s.time + 1 }
  | startGenerate (s : TimerState) (h₁ : s.loaded = true) (h₂ : s.inFlight = false) :
      TimerStep T s { s with inFlight := true }
  | endGenerate (s : TimerState) (h : s.inFlight = true) :
      TimerStep T s { s with inFlight := false, lastInference := s.time,
                             timerDeadline := some (s.time + T) }
  | fire (s : TimerState) (d : ℕ) (h₁ : s.timerDeadline = some d) (h₂ : d ≤ s.time) :
      TimerStep T s { s with loaded := checkAndUnloadLoaded T s,
                             timerDeadline := none }
  | reload (s : TimerState) (h : s.loaded = false) :
      TimerStep T s { s with loaded := true }

/-- Startup state: model loaded by `lifespan`, no timer armed. -/
def timerInit : TimerState :=
  ⟨0, true, 0, none, false⟩

/-- Reachability under the interleaving semantics. -/
def TimerReachable (T : ℕ) (s : TimerState) : Prop :=
  Relation.ReflTransGen (TimerStep T) timerInit s

/-! ### Concrete instances used by counterexamples and witnesses -/

/-- A genuine cue: nonempty non-artifact text, 2 s duration. -/
def cueHello : Cue := ⟨"hello".data, 0, 2⟩

/-- An artifact cue (`"..."` is in the exact hallucination set). -/
def cueDots : Cue := ⟨"...".data, 0, 2⟩

/-- A probability oracle answering 1 on frames starting with sample 1 and
0 elsewhere. -/
def probHead1 : List ℚ → ℚ :=
  fun chunk => if chunk.head? = some 1 then 1 else 0

/-- A probability oracle answering 1 always. -/
def probOne : List ℚ → ℚ := fun _ => 1

/-- 512 one-samples followed by 512 zero-samples (two VAD frames). -/
def audioSpeechThenSilence : List ℚ :=
  List.replicate 512 1 ++ List.replicate 512 0

/-- A vocal-separation engine that returns an all-zero track of the same
length (an extreme but legal output of the external separator). -/
def sepZeros : List ℚ → Option (List ℚ) :=
  fun a => some (List.replicate a.length 0)

/-- 16 VAD frames (8192 samples, ~0.51 s) of all-one samples. -/
def audioOnes : List ℚ := List.replicate 8192 1

/-- The chunking behaviour that the specification's Long-Form Chunker
contract requires of the whole-audio mode, for a context window `w` and
overlap `overlap`. -/
def chunkedRawClaim (w overlap : ℕ) : Prop :=
  ∀ audio : List ℚ, w < audio.length →
    raw_generate_inputs audio = spec_long_form_chunks w overlap audio

/-! ## Supporting lemmas -/

theorem dropWhile_idem {α : Type} (p : α → Bool) (l : List α) :
    (l.dropWhile p).dropWhile p = l.dropWhile p := by
  induction l with
  | nil => rfl
  | cons a t ih =>
    cases h : p a with
    | false => simp [List.dropWhile_cons, h]
    | true => simp [List.dropWhile_cons, h, ih]

theorem dropWhile_eq_self_of_isPrefix {α : Type} (p : α → Bool) :
    ∀ {m l : List α}, m <+: l → l.dropWhile p = l → m.dropWhile p = m := by
  intro m l hpre hl
  cases m with
  | nil => rfl
  | cons a t =>
    cases l with
    | nil => simp at hpre
    | cons b s =>
      obtain ⟨r, hr⟩ := hpre
      rw [List.cons_append] at hr
      injection hr with hab hts
      subst hab
      rw [List.dropWhile_cons] at hl ⊢
      cases h : p a with
      | false => simp
      | true =>
        rw [h] at hl
        simp only [if_pos rfl, ite_true] at hl
        have hlen := congrArg List.length hl
        have hle : (s.dropWhile p).length ≤ s.length :=
          (List.dropWhile_sublist p).length_le
        simp at hlen
        omega

theorem strip_idem (l : List Char) : strip (strip l) = strip l := by
  obtain ⟨r, hr⟩ :
      ((l.dropWhile isSpaceChar).reverse).dropWhile isSpaceChar <:+
        (l.dropWhile isSpaceChar).reverse :=
    List.dropWhile_suffix _
  have hpre :
      (((l.dropWhile isSpaceChar).reverse).dropWhile isSpaceChar).reverse <+:
        l.dropWhile isSpaceChar :=
    ⟨r.reverse, by rw [← List.reverse_append, hr, List.reverse_reverse]⟩
  have h1 := dropWhile_eq_self_of_isPrefix isSpaceChar hpre (dropWhile_idem isSpaceChar l)
  unfold strip
  rw [h1, List.reverse_reverse, dropWhile_idem]

theorem mem_filterGo : ∀ {cs : List Cue} {prev : List Char} {rc : ℕ} {c : Cue},
    c ∈ filterGo prev rc cs → cleanCue c := by
  intro cs
  induction cs with
  | nil => intro prev rc c h; simp [filterGo] at h
  | cons a rest ih =>
    intro prev rc c h
    rw [filterGo] at h
    by_cases h1 : strip a.text = []
    · rw [if_pos h1] at h; exact ih h
    rw [if_neg h1] at h
    by_cases h2 : (29:ℚ) ≤ a.end_ts - a.start_ts
    · rw [if_pos h2] at h; exact ih h
    rw [if_neg h2] at h
    by_cases h3 : strip a.text = prev ∧ 2 ≤ rc + 1
    · rw [if_pos h3] at h; exact ih h
    rw [if_neg h3] at h
    by_cases h4 : is_hallucination (strip a.text) (a.end_ts - a.start_ts) = true
    · rw [if_pos h4] at h; exact ih h
    rw [if_neg h4] at h
    rcases List.mem_cons.mp h with hc | hc
    · subst hc
      exact ⟨strip_idem _, h1, not_le.mp h2, by simpa using h4⟩
    · exact ih hc

theorem noTripleRepeat_tail {a : Cue} {l : List Cue}
    (h : noTripleRepeat (a :: l) = true) : noTripleRepeat l = true := by
  match l with
  | [] => rfl
  | [b] => rfl
  | b :: c :: rest =>
    rw [noTripleRepeat, Bool.and_eq_true] at h
    exact h.2

/-- On a list of cues that all pass the per-cue checks and contains no
three consecutive identical texts, the filter loop keeps everything,
whatever its starting state, provided the first text differs from
`prev`. -/
theorem filterGo_eq_self : ∀ (n : ℕ) (cs : List Cue), cs.length ≤ n →
    (∀ c ∈ cs, cleanCue c) → noTripleRepeat cs = true →
    ∀ (prev : List Char) (rc : ℕ), (∀ x ∈ cs.head?, strip x.text ≠ prev) →
    filterGo prev rc cs = cs := by
  intro n
  induction n with
  | zero =>
    intro cs hlen _ _ prev rc _
    rw [List.length_eq_zero.mp (Nat.le_zero.mp hlen)]
    rfl
  | succ n ih =>
    intro cs hlen hclean htriple prev rc hhead
    match cs with
    | [] => rfl
    | c :: rest =>
      obtain ⟨hcs, hne, hdur, hhal⟩ := hclean c (List.mem_cons_self _ _)
      have hprev : strip c.text ≠ prev := hhead c rfl
      rw [filterGo, if_neg (by rw [hcs]; exact hne), if_neg (not_le.mpr hdur),
        if_neg (fun hand => hprev hand.1),
        if_neg (by rw [hcs]; simp [hhal]), if_neg hprev]
      have hcue : (⟨strip c.text, c.start_ts, c.end_ts⟩ : Cue) = c := by rw [hcs]
      rw [hcue]
      congr 1
      match rest with
      | [] => rfl
      | d :: rest2 =>
        obtain ⟨hds, hdne, hddur, hdhal⟩ := hclean d (by simp)
        by_cases hdc : strip d.text = strip c.text
        · rw [filterGo, if_neg (by rw [hds]; exact hdne), if_neg (not_le.mpr hddur),
            if_neg (fun hand => by omega), if_neg (by rw [hds]; simp [hdhal]),
            if_pos hdc]
          have hdcue : (⟨strip d.text, d.start_ts, d.end_ts⟩ : Cue) = d := by rw [hds]
          rw [hdcue]
          congr 1
          match rest2 with
          | [] => rfl
          | e :: rest3 =>
            obtain ⟨hes, hene, _, _⟩ := hclean e (by simp)
            have htext : d.text = c.text := by rw [← hds, ← hcs, hdc]
            have hde : d.text ≠ e.text := by
              rw [noTripleRepeat, Bool.and_eq_true] at htriple
              intro hcontra
              have h1 := htriple.1
              rw [htext] at hcontra
              simp [htext, hcontra] at h1
            have hl3 : (e :: rest3).length ≤ n := by
              simp only [List.length_cons] at hlen ⊢
              omega
            exact ih (e :: rest3) hl3 (fun x hx => hclean x (by simp at hx ⊢; tauto))
              (noTripleRepeat_tail (noTripleRepeat_tail htriple)) (strip d.text) (0 + 1)
              (fun x hx => by
                simp at hx
                rw [← hx, hes, hds]
                exact fun hcontra => hde hcontra.symm)
        · have hl2 : (d :: rest2).length ≤ n := by
            simp only [List.length_cons] at hlen ⊢
            omega
          exact ih (d :: rest2) hl2 (fun x hx => hclean x (by simp at hx ⊢; tauto))
            (noTripleRepeat_tail htriple) (strip c.text) 0
            (fun x hx => by simp at hx; rw [← hx]; exact hdc)

/-- Once the repeat counter is at least 1 and `prev` equals the cue's
text, every further copy of the cue is dropped. -/
theorem filterGo_replicate_drop (c : Cue)
    (hcs : strip c.text = c.text) (hne : c.text ≠ [])
    (hdur : c.end_ts - c.start_ts < 29) :
    ∀ (n rc : ℕ), 1 ≤ rc → filterGo c.text rc (List.replicate n c) = [] := by
  intro n
  induction n with
  | zero => intro rc _; rfl
  | succ m ih =>
    intro rc hrc
    rw [List.replicate_succ, filterGo, if_neg (by rw [hcs]; exact hne),
      if_neg (not_le.mpr hdur), if_pos ⟨hcs, by omega⟩]
    exact ih (rc + 1) (by omega)

/-! ## Claim theorems -/

/-- C3, counterexample: two consecutive byte-identical genuine cues are
BOTH kept by `chunks_to_vtt`; the claim's collapse to only the first
occurrence does not happen. -/
theorem C3_counterexample :
    chunks_to_vtt_kept [cueHello, cueHello] = [cueHello, cueHello] ∧
      chunks_to_vtt_kept [cueHello, cueHello] ≠ [cueHello] := by
  constructor
  · with_unfolding_all decide
  · with_unfolding_all decide

/-- C3 (amended): a run of `n` consecutive byte-identical cues that pass
the other filters is collapsed to its first TWO occurrences; every
consecutive repeat from the third on is discarded. -/
theorem C3_consecutive_repeats_keep_first_two (n : ℕ) (c : Cue)
    (hcs : strip c.text = c.text) (hne : c.text ≠ [])
    (hdur : c.end_ts - c.start_ts < 29)
    (hhal : is_hallucination c.text (c.end_ts - c.start_ts) = false) :
    chunks_to_vtt_kept (List.replicate n c) = List.replicate (min n 2) c := by
  have hcue : (⟨strip c.text, c.start_ts, c.end_ts⟩ : Cue) = c := by rw [hcs]
  match n with
  | 0 => rfl
  | 1 =>
    rw [chunks_to_vtt_kept, show List.replicate 1 c = [c] from rfl,
      filterGo, if_neg (by rw [hcs]; exact hne), if_neg (not_le.mpr hdur),
      if_neg (fun hand => absurd hand.2 (by omega)),
      if_neg (by rw [hcs]; simp [hhal]), if_neg (by rw [hcs]; exact hne), hcue]
    rfl
  | (m + 2) =>
    rw [chunks_to_vtt_kept, List.replicate_succ,
      filterGo, if_neg (by rw [hcs]; exact hne), if_neg (not_le.mpr hdur),
      if_neg (fun hand => absurd hand.2 (by omega)),
      if_neg (by rw [hcs]; simp [hhal]), if_neg (by rw [hcs]; exact hne), hcue,
      List.replicate_succ,
      filterGo, if_neg (by rw [hcs]; exact hne), if_neg (not_le.mpr hdur),
      if_neg (fun hand => absurd hand.2 (by omega)),
      if_neg (by rw [hcs]; simp [hhal]), if_pos rfl, hcue, hcs,
      filterGo_replicate_drop c hcs hne hdur m (0 + 1) (by omega)]
    have hmin : min (m + 2) 2 = 2 := by omega
    rw [hmin]
    rfl

/-- C3 witness: five identical genuine cues collapse to the first two. -/
theorem C3_witness :
    chunks_to_vtt_kept (List.replicate 5 cueHello) = List.replicate (min 5 2) cueHello :=
  C3_consecutive_repeats_keep_first_two 5 cueHello (by with_unfolding_all decide)
    (by with_unfolding_all decide) (by with_unfolding_all decide)
    (by with_unfolding_all decide)

/-- C6, counterexample: the cue-dropping pass of `chunks_to_vtt` is not
idempotent.  A hallucination cue between identical repeats resets
`prev_text`, so the first pass keeps three identical cues in a row and a
second pass removes one more. -/
theorem C6_counterexample :
    chunks_to_vtt_kept (chunks_to_vtt_kept [cueHello, cueHello, cueDots, cueHello]) ≠
      chunks_to_vtt_kept [cueHello, cueHello, cueDots, cueHello] := by
  with_unfolding_all decide

/-- C6 (amended): refiltering removes nothing when the filtered list has
no three consecutive byte-identical texts (the only situation a first
pass can create that the repetition heuristic would still act on). -/
theorem C6_filter_idempotent_without_triple_runs (cs : List Cue)
    (h : noTripleRepeat (chunks_to_vtt_kept cs) = true) :
    chunks_to_vtt_kept (chunks_to_vtt_kept cs) = chunks_to_vtt_kept cs := by
  conv_lhs => rw [chunks_to_vtt_kept]
  refine filterGo_eq_self (chunks_to_vtt_kept cs).length _ le_rfl
    (fun c hc => mem_filterGo hc) h [] 0 (fun x hx => ?_)
  have hmem : x ∈ chunks_to_vtt_kept cs := List.mem_of_mem_head? hx
  obtain ⟨hxs, hxne, _, _⟩ := mem_filterGo hmem
  rw [hxs]
  exact hxne

/-- C6 witness: a singleton genuine cue list is a fixed point. -/
theorem C6_witness :
    chunks_to_vtt_kept (chunks_to_vtt_kept [cueHello]) = chunks_to_vtt_kept [cueHello] :=
  C6_filter_idempotent_without_triple_runs [cueHello] (by with_unfolding_all decide)

/-- C9: any cue whose stripped text is one or two word characters (in the
`\w` sense, covering digits, underscore and non-Latin scripts) is
classified as a hallucination whatever its duration. -/
theorem C9_word_fragments_rejected_regardless_of_duration
    (text : List Char) (duration : ℚ)
    (hlen : (strip text).length = 1 ∨ (strip text).length = 2)
    (hword : ∀ ch ∈ strip text, isWordChar ch = true) :
    is_hallucination text duration = true := by
  have htext : text ≠ [] := by
    intro h
    rw [h] at hlen
    simp [strip] at hlen
  have ht : ¬ strip text = [] := by
    intro h
    rw [h] at hlen
    simp at hlen
  have hpat : matchesHallucinationPattern (strip text) = true := by
    have h12 : patWord12 (strip text) = true := by
      rw [patWord12, Bool.and_eq_true]
      constructor
      · rcases hlen with h | h <;> simp [h]
      · rw [List.all_eq_true]
        exact hword
    rw [matchesHallucinationPattern]
    simp [h12]
  rw [is_hallucination]
  split_ifs <;> rfl

/-- C9 witness: a CJK single character and a two-digit fragment are both
rejected at long durations. -/
theorem C9_witness :
    is_hallucination "視".data 50 = true ∧ is_hallucination "42".data 100 = true :=
  ⟨C9_word_fragments_rejected_regardless_of_duration "視".data 50
      (Or.inl (by decide)) (by decide),
   C9_word_fragments_rejected_regardless_of_duration "42".data 100
      (Or.inr (by decide)) (by decide)⟩

/-- C7: when the external load fails, the handle is left unloaded, the
loading flag is cleared, the error propagates, and for a swap request the
requested model id is retained so that the lazy reload targets it. -/
theorem C7_load_failure_leaves_unloaded (build : String → Option String)
    (mid : String) (is_swap : Bool) (s : LifecycleState)
    (hfail : build mid = none) :
    (load_model_by_id build mid is_swap s).1.pipeline = none ∧
    (load_model_by_id build mid is_swap s).1.loading_model = false ∧
    (load_model_by_id build mid is_swap s).2 = Except.error mid ∧
    (is_swap = true →
      (load_model_by_id build mid is_swap s).1.model_id_str = some mid ∧
      ∀ envDefault,
        ensure_model_loaded_target (load_model_by_id build mid is_swap s).1 envDefault = mid) := by
  refine ⟨by simp [load_model_by_id, hfail], by simp [load_model_by_id, hfail],
    by simp [load_model_by_id, hfail], fun hsw => ?_⟩
  subst hsw
  exact ⟨by simp [load_model_by_id, hfail],
    fun d => by simp [load_model_by_id, hfail, ensure_model_loaded_target]⟩

/-- C7 witness: a failing swap from `"m1"` to `"m2"`; the retained id and
reload target are `"m2"`. -/
theorem C7_witness :
    (load_model_by_id (fun _ => none) "m2" true ⟨some "h1", some "m1", false⟩).1.pipeline = none ∧
    (load_model_by_id (fun _ => none) "m2" true ⟨some "h1", some "m1", false⟩).2 = Except.error "m2" ∧
    (load_model_by_id (fun _ => none) "m2" true ⟨some "h1", some "m1", false⟩).1.model_id_str = some "m2" ∧
    ensure_model_loaded_target
      (load_model_by_id (fun _ => none) "m2" true ⟨some "h1", some "m1", false⟩).1 "m0" = "m2" :=
  have h := C7_load_failure_leaves_unloaded (fun _ => none) "m2" true
    ⟨some "h1", some "m1", false⟩ rfl
  ⟨h.1, h.2.2.1, (h.2.2.2 rfl).1, (h.2.2.2 rfl).2 "m0"⟩

/-- Taking `n` clock ticks preserves reachability. -/
theorem timerReachable_ticks (T n : ℕ) {s : TimerState} (h : TimerReachable T s) :
    TimerReachable T { s with time := s.time + n } := by
  induction n with
  | zero => simpa using h
  | succ m ih => exact ih.tail (TimerStep.tick _)

/-- C2, counterexample: a reachable interleaving in which the idle timer
fires and unloads the model while an inference is in flight.  A request
completes at t = 0 arming the timer for t = 120; a new inference starts at
t = 120; the timer then fires: 120 s have elapsed since the last COMPLETED
inference, so `_check_and_unload` unloads mid-inference. -/
theorem C2_counterexample :
    ∃ s s' : TimerState, TimerReachable 120 s ∧ TimerStep 120 s s' ∧
      s.inFlight = true ∧ s.loaded = true ∧ s'.loaded = false := by
  refine ⟨⟨120, true, 0, some 120, true⟩,
    ⟨120, false, 0, none, true⟩, ?_, ?_, rfl, rfl, rfl⟩
  · have h0 : TimerReachable 120 timerInit := Relation.ReflTransGen.refl
    have h1 : TimerReachable 120 ⟨0, true, 0, none, true⟩ :=
      h0.tail (TimerStep.startGenerate timerInit rfl rfl)
    have h2 : TimerReachable 120 ⟨0, true, 0, some 120, false⟩ :=
      h1.tail (TimerStep.endGenerate ⟨0, true, 0, none, true⟩ rfl)
    have h3 : TimerReachable 120 ⟨120, true, 0, some 120, false⟩ := by
      simpa using timerReachable_ticks 120 120 h2
    exact h3.tail (TimerStep.startGenerate ⟨120, true, 0, some 120, false⟩ rfl rfl)
  · exact TimerStep.fire ⟨120, true, 0, some 120, true⟩ 120 rfl (by decide)

/-- C2 (amended): within the modelled interleavings the only transition
that unloads the model is a due timer expiry, and it unloads only when at
least `IDLE_TIMEOUT - 1` seconds have elapsed since the last COMPLETED
inference; nothing prevents it from doing so while a later inference is in
flight. -/
theorem C2_unload_only_at_idle_timer_expiry (T : ℕ) (s s' : TimerState)
    (hstep : TimerStep T s s') (hl : s.loaded = true) (hl' : s'.loaded = false) :
    (∃ d, s.timerDeadline = some d ∧ d ≤ s.time) ∧
      T - 1 ≤ s.time - s.lastInference := by
  cases hstep with
  | tick => simp_all
  | startGenerate => simp_all
  | endGenerate => simp_all
  | reload => simp_all
  | fire d h1 h2 =>
    by_cases hc : T - 1 ≤ s.time - s.lastInference
    · exact ⟨⟨d, h1, h2⟩, hc⟩
    · simp only [checkAndUnloadLoaded, if_neg hc] at hl'
      rw [hl] at hl'
      exact absurd hl' (by simp)

/-- Equation lemma for one loop iteration. -/
theorem vadLoop_succ (prob : List ℚ → ℚ) (audio : List ℚ) (threshold : ℚ)
    (cs minSilence minSpeech k : ℕ) :
    vadLoop prob audio threshold cs minSilence minSpeech (k + 1) =
      vadStep threshold cs minSilence minSpeech
        (vadLoop prob audio threshold cs minSilence minSpeech k)
        (prob ((audio.drop (k * cs)).take cs)) ((k : ℤ) * cs) := rfl

/-- One loop iteration preserves the segment and state bounds. -/
theorem vadStep_invariant (threshold : ℚ) (cs minSilence minSpeech : ℕ)
    (st : VadState) (p : ℚ) (k : ℕ)
    (hsegs : ∀ s ∈ st.segs, 0 ≤ s.start ∧ s.start + cs ≤ s.stop ∧
      s.stop ≤ (k : ℤ) * cs ∧ (minSpeech : ℤ) ≤ s.stop - s.start)
    (hsp : st.isSpeech = true → 0 ≤ st.speechStart ∧
      st.speechStart + (cs : ℤ) * ((st.silence : ℤ) + 1) ≤ (k : ℤ) * cs) :
    (∀ s ∈ (vadStep threshold cs minSilence minSpeech st p ((k : ℤ) * cs)).segs,
      0 ≤ s.start ∧ s.start + cs ≤ s.stop ∧
        s.stop ≤ ((k : ℤ) + 1) * cs ∧ (minSpeech : ℤ) ≤ s.stop - s.start) ∧
    ((vadStep threshold cs minSilence minSpeech st p ((k : ℤ) * cs)).isSpeech = true →
      0 ≤ (vadStep threshold cs minSilence minSpeech st p ((k : ℤ) * cs)).speechStart ∧
      (vadStep threshold cs minSilence minSpeech st p ((k : ℤ) * cs)).speechStart +
        (cs : ℤ) * (((vadStep threshold cs minSilence minSpeech st p ((k : ℤ) * cs)).silence : ℤ) + 1) ≤
        ((k : ℤ) + 1) * cs) := by
  have hC : (0 : ℤ) ≤ (cs : ℤ) := Int.natCast_nonneg cs
  have hS : (0 : ℤ) ≤ (st.silence : ℤ) := Int.natCast_nonneg _
  have hCS : (0 : ℤ) ≤ (cs : ℤ) * (st.silence : ℤ) := mul_nonneg hC hS
  have hK : (0 : ℤ) ≤ (k : ℤ) := Int.natCast_nonneg k
  have hmono : (k : ℤ) * cs ≤ ((k : ℤ) + 1) * cs := by nlinarith
  have hsegs' : ∀ s ∈ st.segs, 0 ≤ s.start ∧ s.start + cs ≤ s.stop ∧
      s.stop ≤ ((k : ℤ) + 1) * cs ∧ (minSpeech : ℤ) ≤ s.stop - s.start :=
    fun s hs => ⟨(hsegs s hs).1, (hsegs s hs).2.1,
      le_trans (hsegs s hs).2.2.1 hmono, (hsegs s hs).2.2.2⟩
  rw [vadStep]
  split_ifs with h1 h2 h3 h4 hemit
  · -- speech continues: silence reset
    refine ⟨hsegs', fun _ => ?_⟩
    obtain ⟨ha, hb⟩ := hsp h2
    refine ⟨ha, ?_⟩
    dsimp only
    push_cast
    nlinarith
  · -- speech begins at this frame
    refine ⟨hsegs', fun _ => ?_⟩
    dsimp only
    constructor
    · positivity
    · push_cast
      nlinarith
  · -- silence long enough, segment emitted
    obtain ⟨ha, hb⟩ := hsp h3
    constructor
    · intro s hs
      dsimp only at hs
      rcases List.mem_append.mp hs with hold | hnew
      · exact hsegs' s hold
      · rw [List.mem_singleton] at hnew
        subst hnew
        refine ⟨ha, ?_, ?_, hemit⟩
        · dsimp only
          nlinarith
        · dsimp only
          nlinarith
    · intro hcontra
      simp at hcontra
  · -- silence long enough, segment too short to emit
    refine ⟨fun s hs => hsegs' s (by exact hs), ?_⟩
    intro hcontra
    simp at hcontra
  · -- silence accumulates
    refine ⟨hsegs', fun _ => ?_⟩
    obtain ⟨ha, hb⟩ := hsp h3
    refine ⟨ha, ?_⟩
    dsimp only
    push_cast
    nlinarith
  · -- silence outside speech: state unchanged
    exact ⟨hsegs', fun h => ⟨(hsp h).1, le_trans (hsp h).2 hmono⟩⟩

/-- The loop invariant of `vad_speech_timestamps`: after `k` frames every
recorded segment lies within the processed prefix with the required
minimum duration, and a pending speech segment fits before the current
frame. -/
theorem vadLoop_invariant (prob : List ℚ → ℚ) (audio : List ℚ) (threshold : ℚ)
    (cs minSilence minSpeech : ℕ) (k : ℕ) :
    (∀ s ∈ (vadLoop prob audio threshold cs minSilence minSpeech k).segs,
      0 ≤ s.start ∧ s.start + cs ≤ s.stop ∧ s.stop ≤ (k : ℤ) * cs ∧
        (minSpeech : ℤ) ≤ s.stop - s.start) ∧
    ((vadLoop prob audio threshold cs minSilence minSpeech k).isSpeech = true →
      0 ≤ (vadLoop prob audio threshold cs minSilence minSpeech k).speechStart ∧
      (vadLoop prob audio threshold cs minSilence minSpeech k).speechStart +
        (cs : ℤ) * (((vadLoop prob audio threshold cs minSilence minSpeech k).silence : ℤ) + 1) ≤
        (k : ℤ) * cs) := by
  induction k with
  | zero => exact ⟨by simp [vadLoop], by simp [vadLoop]⟩
  | succ n ih =>
    rw [vadLoop_succ]
    have h := vadStep_invariant threshold cs minSilence minSpeech
      (vadLoop prob audio threshold cs minSilence minSpeech n)
      (prob ((audio.drop (n * cs)).take cs)) n ih.1 ih.2
    refine ⟨fun s hs => ?_, fun hsp => ?_⟩
    · have := h.1 s hs
      refine ⟨this.1, this.2.1, ?_, this.2.2.2⟩
      have heq : ((n : ℤ) + 1) * cs = ((n + 1 : ℕ) : ℤ) * cs := by push_cast; ring
      rw [← heq]
      exact this.2.2.1
    · have := h.2 hsp
      refine ⟨this.1, ?_⟩
      have heq : ((n : ℤ) + 1) * cs = ((n + 1 : ℕ) : ℤ) * cs := by push_cast; ring
      rw [← heq]
      exact this.2

/-- C10: every segment returned by `vad_speech_timestamps` satisfies
`0 ≤ start < end ≤ len(audio)` and `end - start ≥ min_speech_samples`,
including the end-of-signal close with pending trailing silence. -/
theorem C10_vad_segment_bounds (prob : List ℚ → ℚ) (audio : List ℚ) (sr : ℕ)
    (threshold : ℚ) (min_speech_ms min_silence_ms : ℕ)
    (hcs : 0 < vadChunkSize sr) :
    ∀ s ∈ vad_speech_timestamps prob audio sr threshold min_speech_ms min_silence_ms,
      0 ≤ s.start ∧ s.start < s.stop ∧ s.stop ≤ (audio.length : ℤ) ∧
        (msSamples sr min_speech_ms : ℤ) ≤ s.stop - s.start := by
  intro s hs
  have hinv := vadLoop_invariant prob audio threshold (vadChunkSize sr)
    (msSamples sr min_silence_ms) (msSamples sr min_speech_ms)
    (audio.length / vadChunkSize sr)
  have hfs : vadFinalState prob audio sr threshold min_speech_ms min_silence_ms =
      vadLoop prob audio threshold (vadChunkSize sr) (msSamples sr min_silence_ms)
        (msSamples sr min_speech_ms) (audio.length / vadChunkSize sr) := rfl
  rw [← hfs] at hinv
  have hkc : ((audio.length / vadChunkSize sr : ℕ) : ℤ) * (vadChunkSize sr) ≤
      (audio.length : ℤ) := by
    have := Nat.div_mul_le_self audio.length (vadChunkSize sr)
    exact_mod_cast this
  have hC1 : (1 : ℤ) ≤ (vadChunkSize sr : ℤ) := by exact_mod_cast hcs
  rw [vad_speech_timestamps] at hs
  split_ifs at hs with hsp hemit
  · rcases List.mem_append.mp hs with hold | hnew
    · have h := hinv.1 s hold
      exact ⟨h.1, by linarith [h.2.1], le_trans h.2.2.1 hkc, h.2.2.2⟩
    · rw [List.mem_singleton] at hnew
      subst hnew
      obtain ⟨ha, hb⟩ := hinv.2 hsp
      have hCS : (0 : ℤ) ≤ (vadChunkSize sr : ℤ) *
          ((vadFinalState prob audio sr threshold min_speech_ms min_silence_ms).silence : ℤ) :=
        mul_nonneg (Int.natCast_nonneg _) (Int.natCast_nonneg _)
      refine ⟨ha, ?_, ?_, hemit⟩
      · dsimp only
        nlinarith
      · dsimp only
        nlinarith
  · have h := hinv.1 s hs
    exact ⟨h.1, by linarith [h.2.1], le_trans h.2.2.1 hkc, h.2.2.2⟩
  · have h := hinv.1 s hs
    exact ⟨h.1, by linarith [h.2.1], le_trans h.2.2.1 hkc, h.2.2.2⟩

/-- Frame 0 of the two-frame example is the all-ones frame. -/
theorem audioExample_chunk0 :
    (audioSpeechThenSilence.drop (0 * 512)).take 512 = List.replicate 512 (1:ℚ) := by
  rw [audioSpeechThenSilence, Nat.zero_mul, List.drop_zero,
    List.take_left' (by rw [List.length_replicate])]

/-- Frame 1 of the two-frame example is the all-zeros frame. -/
theorem audioExample_chunk1 :
    (audioSpeechThenSilence.drop (1 * 512)).take 512 = List.replicate 512 (0:ℚ) := by
  rw [audioSpeechThenSilence, Nat.one_mul,
    List.drop_left' (by rw [List.length_replicate]),
    List.take_of_length_le (by rw [List.length_replicate])]

theorem audioExample_length : audioSpeechThenSilence.length = 1024 := by
  rw [audioSpeechThenSilence, List.length_append, List.length_replicate,
    List.length_replicate]

/-- On the two-frame example the loop ends still in SPEECH with one
pending silent frame. -/
theorem vadFinal_eval_speechThenSilence :
    vadFinalState probHead1 audioSpeechThenSilence 16000 (1/2) 0 500 =
      ⟨[], true, 0, 1⟩ := by
  rw [vadFinalState, audioExample_length]
  have hcs : vadChunkSize 16000 = 512 := by norm_num [vadChunkSize]
  rw [hcs]
  norm_num
  rw [vadLoop_succ, vadLoop_succ, audioExample_chunk0, audioExample_chunk1]
  have h1 : probHead1 (List.replicate 512 (1:ℚ)) = 1 := by
    rw [probHead1, List.head?_replicate]
    norm_num
  have h0 : probHead1 (List.replicate 512 (0:ℚ)) = 0 := by
    rw [probHead1, List.head?_replicate]
    norm_num
  rw [h1, h0]
  norm_num [vadLoop, vadStep, msSamples]

/-- The segments the two-frame example produces: the end-of-signal close
subtracts the pending silent frame, ending the segment at sample 512. -/
theorem vad_eval_speechThenSilence :
    vad_speech_timestamps probHead1 audioSpeechThenSilence 16000 (1/2) 0 500 =
      [⟨0, 512⟩] := by
  rw [vad_speech_timestamps, vadFinal_eval_speechThenSilence, audioExample_length]
  norm_num [msSamples, vadChunkSize]

/-- On 512 all-ones samples with a constant-1 oracle the loop ends in
SPEECH with no pending silence. -/
theorem vadFinal_eval_allSpeech :
    vadFinalState probOne (List.replicate 512 (1:ℚ)) 16000 (1/2) 0 500 =
      ⟨[], true, 0, 0⟩ := by
  rw [vadFinalState, List.length_replicate]
  have hcs : vadChunkSize 16000 = 512 := by norm_num [vadChunkSize]
  rw [hcs]
  norm_num
  rw [vadLoop_succ]
  norm_num [vadLoop, vadStep, probOne]

/-- C10 witness: the emitted segment of the two-frame example satisfies
all the bounds. -/
theorem C10_witness :
    0 < vadChunkSize 16000 ∧
      (0 ≤ (⟨0, 512⟩ : Seg).start ∧ (⟨0, 512⟩ : Seg).start < (⟨0, 512⟩ : Seg).stop ∧
        (⟨0, 512⟩ : Seg).stop ≤ (audioSpeechThenSilence.length : ℤ) ∧
        (msSamples 16000 0 : ℤ) ≤ (⟨0, 512⟩ : Seg).stop - (⟨0, 512⟩ : Seg).start) :=
  ⟨by decide,
   C10_vad_segment_bounds probHead1 audioSpeechThenSilence 16000 (1/2) 0 500
     (by decide) ⟨0, 512⟩
     (by simp only [vad_eval_speechThenSilence, List.mem_singleton])⟩

/-- C4, counterexample: the two-frame example ends still in SPEECH (one
pending silent frame below `min_silence`), the emitted segment meets the
minimum duration, yet its end is sample 512, not the signal end 1024 —
the close point is `len(audio) - silence_counter * chunk_size`. -/
theorem C4_counterexample :
    (vadFinalState probHead1 audioSpeechThenSilence 16000 (1/2) 0 500).isSpeech = true ∧
    vad_speech_timestamps probHead1 audioSpeechThenSilence 16000 (1/2) 0 500 =
      [⟨0, 512⟩] ∧
    (audioSpeechThenSilence.length : ℤ) = 1024 ∧
    ((⟨0, 512⟩ : Seg).stop ≠ (1024 : ℤ)) :=
  ⟨by rw [vadFinal_eval_speechThenSilence],
   vad_eval_speechThenSilence,
   by rw [audioExample_length]; norm_num,
   by decide⟩

/-- C4 (amended): when the loop ends in SPEECH, the closing segment ends
at `len(audio) - silence_counter * chunk_size` — the signal end minus any
pending silent frames (so exactly the signal end when the final processed
frame was speech) — and it is emitted subject only to the minimum speech
duration, with no trailing-silence requirement. -/
theorem C4_end_of_signal_close (prob : List ℚ → ℚ) (audio : List ℚ) (sr : ℕ)
    (threshold : ℚ) (min_speech_ms min_silence_ms : ℕ)
    (hsp : (vadFinalState prob audio sr threshold min_speech_ms min_silence_ms).isSpeech = true)
    (hmin : (msSamples sr min_speech_ms : ℤ) ≤
      ((audio.length : ℤ) -
        ((vadFinalState prob audio sr threshold min_speech_ms min_silence_ms).silence : ℤ) *
          vadChunkSize sr) -
        (vadFinalState prob audio sr threshold min_speech_ms min_silence_ms).speechStart) :
    (vad_speech_timestamps prob audio sr threshold min_speech_ms min_silence_ms).getLast? =
      some ⟨(vadFinalState prob audio sr threshold min_speech_ms min_silence_ms).speechStart,
        (audio.length : ℤ) -
          ((vadFinalState prob audio sr threshold min_speech_ms min_silence_ms).silence : ℤ) *
            vadChunkSize sr⟩ := by
  rw [vad_speech_timestamps, if_pos hsp, if_pos hmin]
  exact List.getLast?_concat _

/-- C4 witness: an unbroken all-speech signal closes exactly at the
signal end (no pending silence). -/
theorem C4_witness :
    (vad_speech_timestamps probOne (List.replicate 512 (1:ℚ)) 16000 (1/2) 0 500).getLast? =
      some ⟨(vadFinalState probOne (List.replicate 512 (1:ℚ)) 16000 (1/2) 0 500).speechStart,
        (((List.replicate 512 (1:ℚ)).length : ℕ) : ℤ) -
          ((vadFinalState probOne (List.replicate 512 (1:ℚ)) 16000 (1/2) 0 500).silence : ℤ) *
            vadChunkSize 16000⟩ :=
  C4_end_of_signal_close probOne (List.replicate 512 1) 16000 (1/2) 0 500
    (by rw [vadFinal_eval_allSpeech])
    (by rw [vadFinal_eval_allSpeech, List.length_replicate]; decide)

/-- A padded segment slice is a contiguous slice of its source array. -/
theorem extractSlice_isInfix (sr : ℕ) (audio : List ℚ) (s : Seg) :
    extractSlice sr audio s <:+: audio := by
  rw [extractSlice]
  exact ( List.take_prefix _ _).isInfix.trans ( List.drop_suffix _ _).isInfix

/-- With a constant-1 oracle the loop is in SPEECH from frame 0 on, with
no pending silence and `speech_start = 0`. -/
theorem vadLoop_probOne (audio : List ℚ) (threshold : ℚ) (h : threshold ≤ 1)
    (cs mSil mSp : ℕ) :
    ∀ k, 1 ≤ k → vadLoop probOne audio threshold cs mSil mSp k = ⟨[], true, 0, 0⟩ := by
  intro k
  induction k with
  | zero => omega
  | succ n ih =>
    intro _
    rw [vadLoop_succ]
    match n, ih with
    | 0, _ =>
      rw [vadLoop, vadStep]
      rw [if_pos (show threshold ≤ probOne ((audio.drop (0 * cs)).take cs) from h)]
      norm_num
    | (m + 1), ih =>
      rw [ih (by omega), vadStep]
      rw [if_pos (show threshold ≤ probOne ((audio.drop ((m + 1) * cs)).take cs) from h)]
      rfl

/-- Final VAD state on the 8192-sample all-zero vocal track under the
constant-1 oracle and the default parameters. -/
theorem vadFinal_eval_zeros8192 :
    vadFinalState probOne (List.replicate 8192 (0:ℚ)) = ⟨[], true, 0, 0⟩ := by
  rw [vadFinalState, List.length_replicate]
  have hcs : vadChunkSize 16000 = 512 := by norm_num [vadChunkSize]
  rw [hcs]
  norm_num
  exact vadLoop_probOne _ _ (by norm_num) _ _ _ 16 (by norm_num)

/-- The default-parameter VAD on the all-zero track yields one segment
covering the whole track. -/
theorem vad_eval_zeros8192 :
    vad_speech_timestamps probOne (List.replicate 8192 (0:ℚ)) = [⟨0, 8192⟩] := by
  rw [vad_speech_timestamps, vadFinal_eval_zeros8192, List.length_replicate]
  norm_num [msSamples, vadChunkSize]

/-- Defaults-parameter merge keeps the single in-range segment. -/
theorem merge_eval_single8192 :
    merge_segments [⟨0, 8192⟩] = [⟨0, 8192⟩] := by
  have h1 : secSamples 16000 (3/2) = 24000 := by norm_num [secSamples]
  have h2 : secSamples 16000 28 = 448000 := by norm_num [secSamples]
  have h3 : secSamples 16000 (1/2) = 8000 := by norm_num [secSamples]
  rw [merge_segments, h1, h2, h3]
  decide

/-- The padded slice of the whole-track segment is the whole track. -/
theorem extract_eval_zeros8192 :
    extractSlice 16000 (List.replicate 8192 (0:ℚ)) ⟨0, 8192⟩ =
      List.replicate 8192 (0:ℚ) := by
  rw [extractSlice, List.length_replicate]
  norm_num [padSamples]
  rfl

/-- C1, counterexample: in `vocal_sep` mode the recognizer does NOT
receive the original audio.  With a separator returning an all-zero
vocal track for an all-one input, the single `pipeline.generate` call
receives the zero track — not a slice of the original signal. -/
theorem C1_counterexample :
    ∃ arr ∈ run_inference_generate_inputs PreprocessMode.vocal_sep
      (fun _ => BgmLevel.clean) (fun _ a => a) id sepZeros probOne audioOnes,
      ¬ arr <:+: audioOnes := by
  have hlen : audioOnes.length = 8192 := by rw [audioOnes, List.length_replicate]
  have hsep : sepZeros audioOnes = some (List.replicate 8192 (0:ℚ)) := by
    rw [show sepZeros audioOnes = some (List.replicate audioOnes.length (0:ℚ)) from rfl,
      hlen]
  refine ⟨List.replicate 8192 (0:ℚ), ?_, ?_⟩
  · rw [run_inference_generate_inputs, vocal_sep_generate_inputs, hsep]
    dsimp only
    rw [vad_eval_zeros8192]
    rw [if_neg (by simp)]
    rw [merge_eval_single8192, run_segment_inference_inputs, List.map_singleton,
      extract_eval_zeros8192]
    exact List.mem_singleton.mpr rfl
  · intro hinf
    have h0 : (0:ℚ) ∈ List.replicate 8192 (0:ℚ) := by
      rw [List.mem_replicate]
      exact ⟨by norm_num, rfl⟩
    have h2 : (0:ℚ) ∈ audioOnes := hinf.subset h0
    rw [audioOnes] at h2
    have := List.eq_of_mem_replicate h2
    norm_num at this

/-- C1 (amended): in the adaptive mode (and the raw baseline) every array
handed to `pipeline.generate` is a contiguous slice of the original
decoded audio, whatever the BGM classifier, the filters and the oracle
return — filtering feeds only VAD there.  (In `vocal_sep` mode the
recognizer receives slices of the separated vocal track, and in the
legacy mode the silence-replaced signal, as the counterexample shows.) -/
theorem C1_adaptive_raw_recognize_original_audio
    (mode : PreprocessMode) (detect : List ℚ → BgmLevel)
    (highpass : ℕ → List ℚ → List ℚ) (denoise : List ℚ → List ℚ)
    (separate : List ℚ → Option (List ℚ)) (prob : List ℚ → ℚ) (audio : List ℚ)
    (hmode : mode = PreprocessMode.adaptive ∨ mode = PreprocessMode.raw) :
    ∀ arr ∈ run_inference_generate_inputs mode detect highpass denoise separate prob audio,
      arr <:+: audio := by
  intro arr harr
  rcases hmode with h | h <;> subst h
  · rw [run_inference_generate_inputs] at harr
    simp only [adaptive_generate_inputs] at harr
    split_ifs at harr with hempty
    · simp at harr
    · rw [run_segment_inference_inputs] at harr
      obtain ⟨s, _, hseq⟩ := List.mem_map.mp harr
      rw [← hseq]
      exact extractSlice_isInfix 16000 audio s
  · rw [run_inference_generate_inputs, raw_generate_inputs,
      List.mem_singleton] at harr
    subst harr
    exact List.infix_rfl

/-- C1 witness: the raw mode's single call receives the original audio
itself. -/
theorem C1_witness : audioOnes <:+: audioOnes :=
  C1_adaptive_raw_recognize_original_audio PreprocessMode.raw
    (fun _ => BgmLevel.clean) (fun _ a => a) id sepZeros probOne audioOnes
    (Or.inr rfl) audioOnes (List.mem_singleton.mpr rfl)

/-- C8, counterexample: `_run_inference_raw` performs exactly one
`pipeline.generate` call with the entire signal — for a 60 s signal
(twice the 30 s context window) there is no splitting into window-sized
overlapping chunks. -/
theorem C8_counterexample :
    (raw_generate_inputs (List.replicate 960000 (0:ℚ))).length = 1 ∧
      ¬ chunkedRawClaim 480000 80000 := by
  constructor
  · rfl
  · intro hclaim
    have h := hclaim (List.replicate 960000 (0:ℚ))
      (by rw [List.length_replicate]; norm_num)
    have hlen := congrArg List.length h
    rw [raw_generate_inputs, spec_long_form_chunks] at hlen
    simp only [List.length_map, List.length_range, List.length_singleton,
      List.length_replicate] at hlen
    norm_num at hlen

/-- C8 (amended): in the whole-audio (raw) mode the signal is passed to
the recognizer in a single call, whole and unmodified, regardless of its
length; no chunker exists in this path (windowing is internal to the
recognition engine). -/
theorem C8_raw_is_single_whole_signal_call (detect : List ℚ → BgmLevel)
    (highpass : ℕ → List ℚ → List ℚ) (denoise : List ℚ → List ℚ)
    (separate : List ℚ → Option (List ℚ)) (prob : List ℚ → ℚ) (audio : List ℚ) :
    run_inference_generate_inputs PreprocessMode.raw detect highpass denoise
      separate prob audio = [audio] := rfl

/-- Every slice `splitGo` produces has duration in `[minS, maxS]` and
lies between `pos` and `stopV`. -/
theorem splitGo_mem (maxS minS stopV : ℤ) :
    ∀ (n : ℕ) (pos : ℤ), (stopV - pos).toNat ≤ n →
      ∀ s ∈ splitGo maxS minS stopV pos,
        minS ≤ s.stop - s.start ∧ s.stop - s.start ≤ maxS ∧
        pos ≤ s.start ∧ s.stop ≤ stopV := by
  intro n
  induction n with
  | zero =>
    intro pos hn s hs
    rw [splitGo, dif_neg (fun hg => by omega)] at hs
    simp at hs
  | succ m ih =>
    intro pos hn s hs
    rw [splitGo] at hs
    by_cases hg : pos < stopV ∧ 0 < maxS
    · rw [dif_pos hg] at hs
      have hlt1 : pos < min (pos + maxS) stopV := lt_min_iff.mpr ⟨by omega, hg.1⟩
      have hlt2 : min (pos + maxS) stopV ≤ stopV := min_le_right _ _
      have hlt3 : min (pos + maxS) stopV ≤ pos + maxS := min_le_left _ _
      rcases List.mem_append.mp hs with h1 | h2
      · split_ifs at h1 with hemit
        · rw [List.mem_singleton] at h1
          subst h1
          exact ⟨hemit, by dsimp only; omega, le_refl _, hlt2⟩
        · simp at h1
      · have := ih (min (pos + maxS) stopV) (by omega) s h2
        exact ⟨this.1, this.2.1, by omega, this.2.2.2⟩
    · rw [dif_neg hg] at hs
      simp at hs

/-- `splitGo` output is sorted and non-overlapping. -/
theorem splitGo_chain (maxS minS stopV : ℤ) :
    ∀ (n : ℕ) (pos : ℤ), (stopV - pos).toNat ≤ n →
      SegsSortedDisjoint (splitGo maxS minS stopV pos) := by
  intro n
  induction n with
  | zero =>
    intro pos hn
    rw [SegsSortedDisjoint, splitGo, dif_neg (fun hg => by omega)]
    exact List.chain'_nil
  | succ m ih =>
    intro pos hn
    rw [SegsSortedDisjoint, splitGo]
    by_cases hg : pos < stopV ∧ 0 < maxS
    · rw [dif_pos hg]
      have hlt1 : pos < min (pos + maxS) stopV := lt_min_iff.mpr ⟨by omega, hg.1⟩
      rw [List.chain'_append]
      refine ⟨?_, ih (min (pos + maxS) stopV) (by omega), ?_⟩
      · split_ifs
        · exact List.chain'_singleton _
        · exact List.chain'_nil
      · intro x hx y hy
        have hxs : x.stop = min (pos + maxS) stopV := by
          split_ifs at hx with hemit
          · simp only [List.getLast?_singleton, Option.mem_some_iff] at hx
            rw [← hx]
          · simp at hx
        have hymem : y ∈ splitGo maxS minS stopV (min (pos + maxS) stopV) :=
          List.mem_of_mem_head? hy
        have := splitGo_mem maxS minS stopV m (min (pos + maxS) stopV) (by omega) y hymem
        rw [hxs]
        exact this.2.2.1
    · rw [dif_neg hg]
      exact List.chain'_nil

/-- Duration and containment bounds for the per-segment post-processing. -/
theorem splitSeg_mem (maxS minS : ℤ) (sg : Seg) :
    ∀ s ∈ splitSeg maxS minS sg,
      minS ≤ s.stop - s.start ∧ s.stop - s.start ≤ maxS ∧
      sg.start ≤ s.start ∧ s.stop ≤ sg.stop := by
  intro s hs
  rw [splitSeg] at hs
  split_ifs at hs with h1 h2
  · rw [List.mem_singleton] at hs
    subst hs
    exact ⟨h2, h1, le_refl _, le_refl _⟩
  · simp at hs
  · exact splitGo_mem maxS minS sg.stop (sg.stop - sg.start).toNat sg.start
      (le_refl _) s hs

/-- The per-segment post-processing emits a sorted non-overlapping list. -/
theorem splitSeg_chain (maxS minS : ℤ) (sg : Seg) :
    SegsSortedDisjoint (splitSeg maxS minS sg) := by
  rw [splitSeg]
  split_ifs
  · exact List.chain'_singleton _
  · exact List.chain'_nil
  · exact splitGo_chain maxS minS sg.stop (sg.stop - sg.start).toNat sg.start
      (le_refl _)

/-- The head of the merge loop's output starts where `cur` starts. -/
theorem mergeGo_head_start (gapS maxS : ℤ) :
    ∀ (l : List Seg) (cur : Seg), ∀ y ∈ (mergeGo gapS maxS cur l).head?,
      y.start = cur.start := by
  intro l
  induction l with
  | nil =>
    intro cur y hy
    rw [mergeGo] at hy
    simp only [List.head?_cons, Option.mem_some_iff] at hy
    rw [hy]
  | cons s rest ih =>
    intro cur y hy
    rw [mergeGo] at hy
    split_ifs at hy with hm
    · exact ih ⟨cur.start, s.stop⟩ y hy
    · simp only [List.head?_cons, Option.mem_some_iff] at hy
      rw [hy]

/-- Invariants of the merge loop: on a sorted, non-overlapping,
well-formed input the output is sorted, non-overlapping and well-formed,
every output segment starts no earlier than `cur`, and every output
endpoint is one of the incoming endpoints. -/
theorem mergeGo_invariant (gapS maxS : ℤ) :
    ∀ (l : List Seg) (cur : Seg),
      SegsSortedDisjoint (cur :: l) → (∀ s ∈ cur :: l, s.start < s.stop) →
      SegsSortedDisjoint (mergeGo gapS maxS cur l) ∧
      (∀ s ∈ mergeGo gapS maxS cur l, s.start < s.stop) ∧
      (∀ s ∈ mergeGo gapS maxS cur l,
        (s.start = cur.start ∨ s.start ∈ l.map Seg.start) ∧
        (s.stop = cur.stop ∨ s.stop ∈ l.map Seg.stop)) := by
  intro l
  induction l with
  | nil =>
    intro cur _ hwf
    refine ⟨List.chain'_singleton _, ?_, ?_⟩
    · intro t ht
      rw [mergeGo, List.mem_singleton] at ht
      rw [ht]
      exact hwf cur (List.mem_cons_self _ _)
    · intro t ht
      rw [mergeGo, List.mem_singleton] at ht
      rw [ht]
      exact ⟨Or.inl rfl, Or.inl rfl⟩
  | cons s rest ih =>
    intro cur hchain hwf
    have hrel : cur.stop ≤ s.start := (List.chain'_cons.mp hchain).1
    have hchain2 : SegsSortedDisjoint (s :: rest) := (List.chain'_cons.mp hchain).2
    have hwfc : cur.start < cur.stop := hwf cur (List.mem_cons_self _ _)
    have hwfs : s.start < s.stop := hwf s (by simp)
    rw [mergeGo]
    split_ifs with hm
    · -- absorb s into the running segment
      have hchain' : SegsSortedDisjoint (⟨cur.start, s.stop⟩ :: rest) := by
        rw [SegsSortedDisjoint, List.chain'_cons']
        refine ⟨?_, hchain2.tail⟩
        intro y hy
        exact (List.chain'_cons'.mp hchain2).1 y hy
      have hwf' : ∀ x ∈ (⟨cur.start, s.stop⟩ : Seg) :: rest, x.start < x.stop := by
        intro x hx
        rcases List.mem_cons.mp hx with hx | hx
        · subst hx
          dsimp only
          omega
        · exact hwf x (by simp [hx])
      obtain ⟨ha, hb, hc⟩ := ih ⟨cur.start, s.stop⟩ hchain' hwf'
      refine ⟨ha, hb, ?_⟩
      intro x hx
      obtain ⟨h1, h2⟩ := hc x hx
      constructor
      · rcases h1 with h1 | h1
        · exact Or.inl h1
        · exact Or.inr (by simp [h1])
      · rcases h2 with h2 | h2
        · exact Or.inr (by simp [h2])
        · exact Or.inr (by simp [h2])
    · -- emit the running segment, restart from s
      obtain ⟨ha, hb, hc⟩ := ih s hchain2 (fun x hx => hwf x (by simp [hx]))
      refine ⟨?_, ?_, ?_⟩
      · rw [SegsSortedDisjoint, List.chain'_cons']
        refine ⟨?_, ha⟩
        intro y hy
        rw [mergeGo_head_start gapS maxS rest s y hy]
        exact hrel
      · intro x hx
        rcases List.mem_cons.mp hx with hx | hx
        · subst hx
          exact hwfc
        · exact hb x hx
      · intro x hx
        rcases List.mem_cons.mp hx with hx | hx
        · subst hx
          exact ⟨Or.inl rfl, Or.inl rfl⟩
        · obtain ⟨h1, h2⟩ := hc x hx
          constructor
          · rcases h1 with h1 | h1
            · exact Or.inr (by simp [h1])
            · exact Or.inr (by simp [h1])
          · rcases h2 with h2 | h2
            · exact Or.inr (by simp [h2])
            · exact Or.inr (by simp [h2])

/-- In a sorted, non-overlapping list of segments with nonnegative
durations, the first segment ends before every later segment starts. -/
theorem chain'_stop_le_of_mem (a : Seg) :
    ∀ (t : List Seg), SegsSortedDisjoint (a :: t) →
      (∀ m ∈ t, m.start ≤ m.stop) → ∀ m ∈ t, a.stop ≤ m.start := by
  intro t
  induction t generalizing a with
  | nil => intro _ _ m hm; simp at hm
  | cons b r ih =>
    intro hchain hwf m hm
    have hab : a.stop ≤ b.start := (List.chain'_cons.mp hchain).1
    rcases List.mem_cons.mp hm with hm | hm
    · subst hm
      exact hab
    · have hb := hwf b (by simp)
      have := ih b (List.chain'_cons.mp hchain).2 (fun x hx => hwf x (by simp [hx])) m hm
      omega

/-- Gluing: mapping a slicing function over a sorted, non-overlapping
list and concatenating keeps the result sorted and non-overlapping, as
long as each slice list is internally sorted and stays inside its source
segment. -/
theorem chain'_flatMap (f : Seg → List Seg) :
    ∀ (l : List Seg), SegsSortedDisjoint l → (∀ m ∈ l, m.start ≤ m.stop) →
      (∀ m, SegsSortedDisjoint (f m)) →
      (∀ m, ∀ x ∈ f m, m.start ≤ x.start ∧ x.stop ≤ m.stop) →
      SegsSortedDisjoint (l.flatMap f) := by
  intro l
  induction l with
  | nil => intro _ _ _ _; simp [SegsSortedDisjoint]
  | cons a t ih =>
    intro hchain hwf hf hbound
    rw [List.flatMap_cons, SegsSortedDisjoint, List.chain'_append]
    refine ⟨hf a, ih hchain.tail (fun m hm => hwf m (by simp [hm])) hf hbound, ?_⟩
    intro x hx y hy
    have hxa : x.stop ≤ a.stop :=
      (hbound a x (List.mem_of_mem_getLast? hx)).2
    have hymem : y ∈ t.flatMap f := List.mem_of_mem_head? hy
    obtain ⟨m, hmt, hyfm⟩ := List.mem_flatMap.mp hymem
    have hms : a.stop ≤ m.start :=
      chain'_stop_le_of_mem a t hchain (fun x hx => hwf x (by simp [hx])) m hmt
    have hym : m.start ≤ y.start := (hbound m y hyfm).1
    omega

/-- C5, counterexample: merging covers the gap between the inputs, so
the output's coverage is NOT contained in the inputs' coverage — sample
18000 lies in the merged output but in no input segment. -/
theorem C5_counterexample :
    SegsSortedDisjoint [⟨0, 16000⟩, ⟨20000, 30000⟩] ∧
    (∀ s ∈ ([⟨0, 16000⟩, ⟨20000, 30000⟩] : List Seg), s.start < s.stop) ∧
    merge_segments [⟨0, 16000⟩, ⟨20000, 30000⟩] = [⟨0, 30000⟩] ∧
    (∃ s ∈ merge_segments [⟨0, 16000⟩, ⟨20000, 30000⟩],
      s.start ≤ 18000 ∧ (18000 : ℤ) < s.stop) ∧
    ¬ (∃ s ∈ ([⟨0, 16000⟩, ⟨20000, 30000⟩] : List Seg),
      s.start ≤ 18000 ∧ (18000 : ℤ) < s.stop) := by
  have h1 : secSamples 16000 (3/2) = 24000 := by norm_num [secSamples]
  have h2 : secSamples 16000 28 = 448000 := by norm_num [secSamples]
  have h3 : secSamples 16000 (1/2) = 8000 := by norm_num [secSamples]
  have hm : merge_segments [⟨0, 16000⟩, ⟨20000, 30000⟩] = [⟨0, 30000⟩] := by
    rw [merge_segments, h1, h2, h3]
    decide
  refine ⟨by
      rw [SegsSortedDisjoint, List.chain'_cons]
      exact ⟨by decide, List.chain'_singleton _⟩,
    by decide, hm, ?_, by decide⟩
  rw [hm]
  exact ⟨⟨0, 30000⟩, List.mem_singleton.mpr rfl, by decide, by decide⟩

/-- C5 (amended): on a sorted, non-overlapping, well-formed input,
`merge_segments` yields a sorted, non-overlapping list whose every
segment has duration in `[min_samples, max_samples]`; every output
segment starts at or after some input start and ends at or before some
input stop (the output never extends beyond the hull of the input, but
a merged segment may cover the gap BETWEEN inputs). -/
theorem C5_merge_segments_invariants (segments : List Seg) (sr : ℕ)
    (gap_threshold_s max_duration_s min_duration_s : ℚ)
    (hchain : SegsSortedDisjoint segments)
    (hwf : ∀ s ∈ segments, s.start < s.stop) :
    SegsSortedDisjoint
      (merge_segments segments sr gap_threshold_s max_duration_s min_duration_s) ∧
    (∀ s ∈ merge_segments segments sr gap_threshold_s max_duration_s min_duration_s,
      secSamples sr min_duration_s ≤ s.stop - s.start ∧
      s.stop - s.start ≤ secSamples sr max_duration_s) ∧
    (∀ s ∈ merge_segments segments sr gap_threshold_s max_duration_s min_duration_s,
      ∃ a ∈ segments, ∃ b ∈ segments, a.start ≤ s.start ∧ s.stop ≤ b.stop) := by
  rw [merge_segments]
  match segments, hchain, hwf with
  | [], _, _ => exact ⟨List.chain'_nil, by simp [merge_segments_core], by simp [merge_segments_core]⟩
  | s0 :: rest, hchain, hwf =>
    rw [merge_segments_core]
    obtain ⟨hmc, hmwf, hmprov⟩ :=
      mergeGo_invariant (secSamples sr gap_threshold_s) (secSamples sr max_duration_s)
        rest s0 hchain hwf
    refine ⟨?_, ?_, ?_⟩
    · exact chain'_flatMap _ _ hmc (fun m hm => le_of_lt (hmwf m hm))
        (fun m => splitSeg_chain _ _ m)
        (fun m x hx => ⟨(splitSeg_mem _ _ m x hx).2.2.1, (splitSeg_mem _ _ m x hx).2.2.2⟩)
    · intro s hs
      obtain ⟨m, _, hsfm⟩ := List.mem_flatMap.mp hs
      exact ⟨(splitSeg_mem _ _ m s hsfm).1, (splitSeg_mem _ _ m s hsfm).2.1⟩
    · intro s hs
      obtain ⟨m, hmm, hsfm⟩ := List.mem_flatMap.mp hs
      obtain ⟨hps, hpe⟩ := hmprov m hmm
      have hin := splitSeg_mem _ _ m s hsfm
      obtain ⟨a, hamem, hale⟩ : ∃ a ∈ s0 :: rest, a.start ≤ s.start := by
        rcases hps with h | h
        · exact ⟨s0, List.mem_cons_self _ _, by omega⟩
        · obtain ⟨a, hat, hae⟩ := List.mem_map.mp h
          exact ⟨a, by simp [hat], by omega⟩
      obtain ⟨b, hbmem, hble⟩ : ∃ b ∈ s0 :: rest, s.stop ≤ b.stop := by
        rcases hpe with h | h
        · exact ⟨s0, List.mem_cons_self _ _, by omega⟩
        · obtain ⟨b, hbt, hbe⟩ := List.mem_map.mp h
          exact ⟨b, by simp [hbt], by omega⟩
      exact ⟨a, hamem, b, hbmem, hale, hble⟩

/-- C5 witness: the merged gap example's single output segment has
in-range duration. -/
theorem C5_witness :
    secSamples 16000 (1/2) ≤ (⟨0, 30000⟩ : Seg).stop - (⟨0, 30000⟩ : Seg).start ∧
      (⟨0, 30000⟩ : Seg).stop - (⟨0, 30000⟩ : Seg).start ≤ secSamples 16000 28 := by
  have hm : merge_segments [⟨0, 16000⟩, ⟨20000, 30000⟩] = [⟨0, 30000⟩] := by
    have h1 : secSamples 16000 (3/2) = 24000 := by norm_num [secSamples]
    have h2 : secSamples 16000 28 = 448000 := by norm_num [secSamples]
    have h3 : secSamples 16000 (1/2) = 8000 := by norm_num [secSamples]
    rw [merge_segments, h1, h2, h3]
    decide
  exact (C5_merge_segments_invariants [⟨0, 16000⟩, ⟨20000, 30000⟩] 16000 (3/2) 28 (1/2)
    (by
      rw [SegsSortedDisjoint, List.chain'_cons]
      exact ⟨by decide, List.chain'_singleton _⟩)
    (by decide)).2.1 ⟨0, 30000⟩
    (by rw [hm]; exact List.mem_singleton.mpr rfl)

/-- C2 witness: the fire step at t = 120 with the timer armed at t = 0. -/
theorem C2_witness :
    (∃ d, (⟨120, true, 0, some 120, true⟩ : TimerState).timerDeadline = some d ∧
        d ≤ (⟨120, true, 0, some 120, true⟩ : TimerState).time) ∧
      120 - 1 ≤ (⟨120, true, 0, some 120, true⟩ : TimerState).time -
        (⟨120, true, 0, some 120, true⟩ : TimerState).lastInference :=
  C2_unload_only_at_idle_timer_expiry 120 ⟨120, true, 0, some 120, true⟩
    ⟨120, false, 0, none, true⟩
    (TimerStep.fire ⟨120, true, 0, some 120, true⟩ 120 rfl (by decide)) rfl rfl

end FTML
